import Mathlib

/- Verification of the EsportsStats scraper core against its specification.

   The embedded code:
   - Aggregator.average_viewers, Aggregator.agg_twitch_games (bucket loop),
     Aggregator._agg_ts and Aggregator.epoch_to_hour
     from src/scraper/src/aggregator.py;
   - PostgresManager.last_postgres_update, PostgresManager.store_rows and
     MongoManager.first_entry_after from src/scraper/src/dbinterface.py;
   - Scraper.scrape from src/backend/esportstracker/scrapers.py.

   Modelling conventions: CPython integers are arbitrary precision, so epochs
   and viewer counts are Nat/Int with no wrap-around; the Python floor
   division operator on int is Int.fdiv (floor division) on Int and the
   built-in division on Nat (operands there are non-negative); a Python dict
   is modelled as a function into Option for the accumulator and as an
   association list with distinct keys for the viewercounts mapping of one
   entry; datastore state is explicit (lists of stored timestamps or epochs)
   and calls that write to a store are recorded as explicit event lists. -/

namespace EsportsStats

/-- A snapshot entry as consumed by Aggregator.average_viewers: one poll
result object (an Aggregatable model) exposing a unix timestamp via
timestamp() and a dict from entity id to instantaneous viewer count via
viewercounts().  The dict is modelled as an association list whose keys are
distinct.  Model objects define neither a length nor a bool conversion, so
every entry object is truthy in the Python sense. -/
structure Entry where
  ts : Int
  counts : List (Nat × Int)
deriving DecidableEq

/-- The accumulator dict res of average_viewers, a Python dict modelled as a
function into Option: none means the key is absent. -/
abbrev VDict := Nat → Option Int

/-- The initial empty dict res = \x7b\x7d. -/
def emptyDict : VDict := fun _ => none

/-- A single dict store res[name] = v. -/
def dictSet (res : VDict) (name : Nat) (v : Int) : VDict :=
  fun n => if n = name then some v else res n

/-- The inner loop of average_viewers over the items of one entry:
for name, viewers in entry.viewercounts().items():
    if name not in res: res[name] = 0
    res[name] += viewers * dt
where dt is the duration attributed to this entry.  Reading an absent key as
0 and storing the sum is exactly the two-statement Python idiom. -/
def addCounts (res : VDict) (dt : Int) : List (Nat × Int) → VDict
  | [] => res
  | (name, viewers) :: rest =>
      addCounts (dictSet res name ((res name).getD 0 + viewers * dt)) dt rest

/-- The main for loop of average_viewers: walks the sorted entries carrying
last_timestamp (initially start), attributes to every entity of the current
entry the duration from last_timestamp to the entry timestamp, and returns
the accumulated dict together with the final value of last_timestamp. -/
def aggLoop : List Entry → VDict → Int → VDict × Int
  | [], res, last => (res, last)
  | e :: rest, res, last => aggLoop rest (addCounts res (e.ts - last) e.counts) e.ts

/-- entries.sort().  Python list.sort is a stable ascending sort and the
Aggregatable models compare by timestamp only, so this is a stable sort by
timestamp, here realised by the stable insertionSort. -/
def sortEntries (entries : List Entry) : List Entry :=
  entries.insertionSort (fun a b => a.ts ≤ b.ts)

/-- Totality of the timestamp comparison used by the stable sort. -/
instance : IsTotal Entry (fun a b => a.ts ≤ b.ts) :=
  ⟨fun a b => le_total a.ts b.ts⟩

/-- Transitivity of the timestamp comparison used by the stable sort. -/
instance : IsTrans Entry (fun a b => a.ts ≤ b.ts) :=
  ⟨fun _ _ _ h1 h2 => le_trans h1 h2⟩

/-- Aggregator.average_viewers from src/scraper/src/aggregator.py: sorts the
entries, accumulates viewers * duration per entity over the sorted list,
returns the empty dict when there was no entry, otherwise adds the final
segment from the last entry to the end of the period and floor-divides every
accumulated value by the length of the period. -/
def average_viewers (entries : List Entry) (start endt : Int) : VDict :=
  let sorted := sortEntries entries
  let p := aggLoop sorted emptyDict start
  match sorted.getLast? with
  | none => p.1
  | some e =>
      fun n => (addCounts p.1 (endt - p.2) e.counts n).map (fun v => v.fdiv (endt - start))

/-- The observable effect of a call to average_viewers on the caller: the
statement entries.sort() reorders the argument list in place, so after the
call the caller holds the sorted list; the returned mapping is the second
component.  No other state is touched by the function. -/
def average_viewers_run (entries : List Entry) (start endt : Int) :
    List Entry × VDict :=
  (sortEntries entries, average_viewers entries start endt)

/-- Whether an entity id is among the keys of the viewercounts dict of one
entry. -/
def hasKey (name : Nat) : List (Nat × Int) → Bool
  | [] => false
  | (k, _) :: rest => k == name || hasKey name rest

/-- The sum of every value stored under a key of an association list.  On a
genuine dict (distinct keys) this equals the single stored count; it is the
exact quantity the accumulation loop adds for that key. -/
def entrySum (name : Nat) : List (Nat × Int) → Int
  | [] => 0
  | (k, v) :: rest => (if k == name then v else 0) + entrySum name rest

/-- The count of an entity in one entry, read as a dict lookup: the value
stored under the entity id, or 0 when it is absent. -/
def entryCount (name : Nat) : List (Nat × Int) → Int
  | [] => 0
  | (k, v) :: rest => if k == name then v else entryCount name rest

/-- Whether an entity id appears in at least one entry of the list. -/
def appearsIn (name : Nat) : List Entry → Bool
  | [] => false
  | e :: rest => hasKey name e.counts || appearsIn name rest

/-- The timestamp of the final element of an entry list, or the supplied
default for the empty list: the value of last_timestamp after the main
loop. -/
def lastTs : List Entry → Int → Int
  | [], last => last
  | e :: rest, _ => lastTs rest e.ts

/-- The weighted sum accumulated by the code for one entity along an entry
list: for every entry, the total count stored under the entity id times the
duration from the previous timestamp (initially the default). -/
def wsumRun (name : Nat) : List Entry → Int → Int
  | [], _ => 0
  | e :: rest, last => entrySum name e.counts * (e.ts - last) + wsumRun name rest e.ts

/-- The weighted sum as the specification words it, over an already sorted
entry list: for each entry i containing the entity, count_i times the
duration from the timestamp of the previous entry (or start for the first
entry) to the timestamp of entry i, the count being read as a dict
lookup. -/
def wsumSpec (name : Nat) : List Entry → Int → Int
  | [], _ => 0
  | e :: rest, last =>
      (if hasKey name e.counts then entryCount name e.counts * (e.ts - last) else 0)
        + wsumSpec name rest e.ts

/-- The full specified weighted sum over the sorted entries: the per-entry
contributions plus the final term count_last * (endt - lastTimestamp) for
each entity present in the last entry. -/
def specWeightedSum (sorted : List Entry) (start endt : Int) (name : Nat) : Int :=
  wsumSpec name sorted start +
    match sorted.getLast? with
    | none => 0
    | some e =>
        if hasKey name e.counts then entryCount name e.counts * (endt - lastTs sorted start)
        else 0

/-- MongoManager.first_entry_after from src/scraper/src/dbinterface.py: the
collection is the list of timestamps of its documents; the query keeps the
timestamps strictly greater than start, sorted ascending, and the function
returns the first one; when there is none it returns the Python expression
1 << 31 - 1, which parses as 1 <<< (31 - 1) because a shift binds more
loosely than subtraction in Python. -/
def first_entry_after (timestamps : List Nat) (start : Nat) : Nat :=
  match (timestamps.filter (fun t => decide (start < t))).insertionSort (fun a b => a ≤ b) with
  | [] => 1 <<< (31 - 1)
  | t :: _ => t

/-- PostgresManager.last_postgres_update: SELECT COALESCE(MAX(epoch), 0),
modelled over the list of epochs stored in the table: the maximum stored
epoch, or 0 when the table is empty. -/
def last_postgres_update (epochs : List Nat) : Nat :=
  epochs.foldr max 0

/-- Aggregator.epoch_to_hour: the epoch floored to the hour. -/
def epoch_to_hour (epoch : Nat) : Nat :=
  epoch / 3600 * 3600

/-- Aggregator._agg_ts: resolves the next aggregation window.  Inputs are the
epochs committed to the Postgres table, the timestamps present in the Mongo
collection, and the current wall-clock time; the result is the triple
(curhrstart, curhrend, last). -/
def agg_ts (pgEpochs collTs : List Nat) (now : Nat) : Nat × Nat × Nat :=
  let sechr := 3600
  let start := last_postgres_update pgEpochs + sechr
  let lastv := epoch_to_hour now
  let earliest := first_entry_after collTs start
  let curhrstart := earliest / sechr * sechr
  (curhrstart, curhrstart + sechr, lastv)

/-- The hour bucket loop of Aggregator.agg_twitch_games, viewed through the
windows it processes: while curhrend < last the window
(curhrstart, curhrend) is handled, then both bounds advance by 3600. -/
def agg_hour_buckets (curhrstart curhrend last : Nat) : List (Nat × Nat) :=
  if h : curhrend < last then
    (curhrstart, curhrend) :: agg_hour_buckets (curhrstart + 3600) (curhrend + 3600) last
  else []
termination_by last - curhrend
decreasing_by omega

/-- One row handed to the relational store, the result of a to_row call. -/
abbrev Row := List Int

/-- The calls agg_twitch_games can issue to the relational store: a bulk
INSERT with ON CONFLICT DO NOTHING into a table, or a transaction commit. -/
inductive DBEvent where
  | insertRows (table : String) (onConflictIgnore : Bool)
  | commit
deriving DecidableEq

/-- The fixed set of known table names, PostgresManager.tablenames. -/
def tablenames : List String :=
  ["game", "twitch_game_vc", "twitch_stream", "twitch_channel",
   "channel_affiliation", "esports_org"]

/-- PostgresManager.store_rows: returns False without touching the database
when rows is empty or the table is not a known table; otherwise issues one
INSERT ... ON CONFLICT DO NOTHING for the rows and, only when the commit
flag (default False in the source) is set, a commit, and returns True.  The
result pairs the return value with the store calls issued. -/
def store_rows (rows : List Row) (tablename : String) (commit : Bool) :
    Bool × List DBEvent :=
  if rows = [] ∨ tablename ∉ tablenames then (false, [])
  else (true, DBEvent.insertRows tablename true :: if commit then [DBEvent.commit] else [])

/-- The store calls issued by the while loop of Aggregator.agg_twitch_games.
docs s e stands for mongo.docsbetween(s, e, collname); gameRows and vcRows
stand for Game.api_responses_to_games(...).values() and
TwitchGameVC.from_vcs(...), the row lists derived from the documents of one
bucket.  When the bucket has no documents no store call is made; otherwise
store_rows is called for the game table and then for the twitch_game_vc
table, both with the commit flag left at its default False. -/
def agg_games_loop_events (docs : Nat → Nat → List Entry)
    (gameRows vcRows : List Entry → List Row)
    (curhrstart curhrend last : Nat) : List DBEvent :=
  if h : curhrend < last then
    (if docs curhrstart curhrend ≠ [] then
        (store_rows (gameRows (docs curhrstart curhrend)) "game" false).2
          ++ (store_rows (vcRows (docs curhrstart curhrend)) "twitch_game_vc" false).2
      else [])
      ++ agg_games_loop_events docs gameRows vcRows (curhrstart + 3600) (curhrend + 3600) last
  else []
termination_by last - curhrend
decreasing_by omega

/-- Aggregator.agg_twitch_games viewed through its store calls: the bucket
loop runs to completion, then man.commit() issues the single commit. -/
def agg_twitch_games_events (docs : Nat → Nat → List Entry)
    (gameRows vcRows : List Entry → List Row)
    (curhrstart curhrend last : Nat) : List DBEvent :=
  agg_games_loop_events docs gameRows vcRows curhrstart curhrend last ++ [DBEvent.commit]

/-- The outcome of one call to self.run() inside Scraper.scrape: normal
return, one of the two caught exception classes (requests ConnectionError,
pymongo ServerSelectionTimeoutError), or any other exception. -/
inductive RunResult where
  | ok
  | connectionError
  | serverSelectionTimeout
  | otherError
deriving DecidableEq

/-- What one iteration of the scrape loop is observed to do: complete (with
the flag recording whether a warning was logged and the amount of time
slept) or let an exception escape the loop. -/
inductive IterEvent where
  | completed (warned : Bool) (slept : ℚ)
  | raised
deriving DecidableEq

/-- The sleep of one iteration:
time_to_sleep = self.update_interval - (time.time() - start_time)
followed by time.sleep(time_to_sleep) only when time_to_sleep > 0.
interval is update_interval and elapsed is the wall-clock time from
start_time to the time.time() call on that line. -/
def sleep_amount (interval elapsed : ℚ) : ℚ :=
  if 0 < interval - elapsed then interval - elapsed else 0

/-- Scraper.scrape from src/backend/esportstracker/scrapers.py: an unbounded
while True loop; each iteration calls self.run() inside a try block that
catches requests.exceptions.ConnectionError and
pymongo.errors.ServerSelectionTimeoutError with a logged warning, computes
the remaining sleep and sleeps it when positive; any other exception
propagates and no further iteration runs.  The schedule lists, for each
iteration, the outcome of run() and the elapsed time observed at the sleep
computation; the result lists what each executed iteration did. -/
def scrape (interval : ℚ) : List (RunResult × ℚ) → List IterEvent
  | [] => []
  | (r, elapsed) :: rest =>
    match r with
    | RunResult.ok =>
        IterEvent.completed false (sleep_amount interval elapsed) :: scrape interval rest
    | RunResult.connectionError =>
        IterEvent.completed true (sleep_amount interval elapsed) :: scrape interval rest
    | RunResult.serverSelectionTimeout =>
        IterEvent.completed true (sleep_amount interval elapsed) :: scrape interval rest
    | RunResult.otherError => [IterEvent.raised]

/- Theorems.  Helper lemmas come first, then one theorem per claim with its
witness or counterexample. -/

/-- C2 (code bug): when no document has a timestamp strictly greater than
start, first_entry_after is meant to return the effectively infinite
sentinel 2 ^ 31 - 1, but the Python expression 1 << 31 - 1 parses as
1 << (31 - 1) = 2 ^ 30 = 1073741824, an epoch in January 2004 that is
neither the intended sentinel nor greater than a present-day wall-clock
epoch such as 1760000000 (October 2025). -/
theorem first_entry_after_sentinel :
    first_entry_after [] 1760000000 = 1073741824
    ∧ first_entry_after [] 1760000000 ≠ 2 ^ 31 - 1
    ∧ first_entry_after [] 1760000000 < 1760000000 := by
  decide

/-- Every bucket processed by the hour loop ends strictly before the now
floor. -/
theorem agg_hour_buckets_end_lt (s e last : Nat) :
    ∀ p ∈ agg_hour_buckets s e last, p.2 < last := by
  induction s, e, last using agg_hour_buckets.induct with
  | case1 s e last h ih =>
    intro p hp
    rw [agg_hour_buckets, dif_pos h] at hp
    rcases List.mem_cons.mp hp with rfl | hp2
    · exact h
    · exact ih p hp2
  | case2 s e last h =>
    intro p hp
    rw [agg_hour_buckets, dif_neg h] at hp
    exact absurd hp (List.not_mem_nil p)

/-- Every hour-aligned advance of the initial window whose end lies strictly
below the now floor is processed by the hour loop. -/
theorem agg_hour_buckets_mem_of_lt (s e last : Nat) :
    ∀ k, e + 3600 * k < last →
      (s + 3600 * k, e + 3600 * k) ∈ agg_hour_buckets s e last := by
  induction s, e, last using agg_hour_buckets.induct with
  | case1 s e last h ih =>
    intro k hk
    rw [agg_hour_buckets, dif_pos h]
    cases k with
    | zero => simp
    | succ k2 =>
      apply List.mem_cons_of_mem
      have h1 : s + 3600 * (k2 + 1) = s + 3600 + 3600 * k2 := by ring
      have h2 : e + 3600 * (k2 + 1) = e + 3600 + 3600 * k2 := by ring
      rw [h1, h2]
      exact ih k2 (by omega)
  | case2 s e last h =>
    intro k hk
    exact absurd (Nat.lt_of_le_of_lt (Nat.le_add_right e (3600 * k)) hk) h

/-- C3 amended: the bucket loop terminates exactly when curhrend reaches the
current time floored to the hour: every processed bucket ends strictly
before the now floor (so the current, possibly partial, hour is never
aggregated), and every hour-aligned bucket whose end is strictly below the
now floor is processed in the run. -/
theorem agg_hour_buckets_termination (s e last : Nat) :
    (∀ p ∈ agg_hour_buckets s e last, p.2 < last)
    ∧ ∀ k, e + 3600 * k < last →
        (s + 3600 * k, e + 3600 * k) ∈ agg_hour_buckets s e last :=
  ⟨agg_hour_buckets_end_lt s e last, agg_hour_buckets_mem_of_lt s e last⟩

/-- C3 as stated is false at the boundary: with the now floor at 7200 the
bucket (3600, 7200) has bucketEnd equal to the now floor, which the claim
says is still processed, but the loop guard curhrend < last is already false
and the run processes nothing. -/
theorem agg_hour_buckets_boundary :
    (7200 : Nat) ≤ 7200 ∧ agg_hour_buckets 3600 7200 7200 = [] := by
  constructor
  · exact le_refl 7200
  · rw [agg_hour_buckets]
    simp

/-- Witness for the amended C3 at concrete values: with the now floor at
10800 the first bucket (3600, 7200) is processed. -/
theorem agg_hour_buckets_termination_witness :
    (3600 + 3600 * 0, 7200 + 3600 * 0) ∈ agg_hour_buckets 3600 7200 10800 :=
  (agg_hour_buckets_termination 3600 7200 10800).2 0 (by decide)

/-- Characterisation of first_entry_after when a matching document exists: it
returns a stored timestamp strictly greater than start that is minimal among
those. -/
theorem first_entry_after_spec (coll : List Nat) (start t0 : Nat)
    (h0 : t0 ∈ coll) (hgt : start < t0) :
    first_entry_after coll start ∈ coll
    ∧ start < first_entry_after coll start
    ∧ first_entry_after coll start ≤ t0 := by
  have ht0f : t0 ∈ coll.filter (fun t => decide (start < t)) :=
    List.mem_filter.mpr ⟨h0, by simpa using hgt⟩
  have hperm := List.perm_insertionSort (fun a b => a ≤ b)
    (coll.filter (fun t => decide (start < t)))
  have hsorted := List.sorted_insertionSort (fun a b => a ≤ b)
    (coll.filter (fun t => decide (start < t)))
  have ht0s : t0 ∈ (coll.filter (fun t => decide (start < t))).insertionSort
      (fun a b => a ≤ b) :=
    hperm.mem_iff.mpr ht0f
  unfold first_entry_after
  cases hS : (coll.filter (fun t => decide (start < t))).insertionSort
      (fun a b => a ≤ b) with
  | nil =>
    rw [hS] at ht0s
    exact absurd ht0s (List.not_mem_nil t0)
  | cons a rest =>
    rw [hS] at ht0s hsorted hperm
    have ha : a ∈ coll.filter (fun t => decide (start < t)) :=
      hperm.mem_iff.mp (List.mem_cons_self a rest)
    have haf := List.mem_filter.mp ha
    refine ⟨haf.1, by simpa using haf.2, ?_⟩
    rcases List.mem_cons.mp ht0s with rfl | hmem
    · exact le_refl t0
    · exact (List.sorted_cons.mp hsorted).1 t0 hmem

/-- C4: the resolved window always satisfies curhrend = curhrstart + 3600
with curhrstart a multiple of 3600, and whenever some snapshot timestamp
lies strictly after lastCommittedEpoch + 3600, curhrstart is the earliest
such timestamp floored to the hour. -/
theorem agg_ts_window :
    (∀ pg coll now, (agg_ts pg coll now).2.1 = (agg_ts pg coll now).1 + 3600
        ∧ 3600 ∣ (agg_ts pg coll now).1)
    ∧ ∀ pg coll now e, e ∈ coll →
        last_postgres_update pg + 3600 < e →
        (∀ t ∈ coll, last_postgres_update pg + 3600 < t → e ≤ t) →
        (agg_ts pg coll now).1 = e / 3600 * 3600 := by
  constructor
  · intro pg coll now
    exact ⟨rfl, ⟨first_entry_after coll (last_postgres_update pg + 3600) / 3600,
      Nat.mul_comm _ _⟩⟩
  · intro pg coll now e he hgt hmin
    have hspec := first_entry_after_spec coll (last_postgres_update pg + 3600) e he hgt
    have h1 : e ≤ first_entry_after coll (last_postgres_update pg + 3600) :=
      hmin _ hspec.1 hspec.2.1
    have h2 : first_entry_after coll (last_postgres_update pg + 3600) = e :=
      le_antisymm hspec.2.2 h1
    show first_entry_after coll (last_postgres_update pg + 3600) / 3600 * 3600
      = e / 3600 * 3600
    rw [h2]

/-- Witness for C4: with an empty Postgres table and documents at 7200 and
3700, the earliest document after 3600 is 3700 and the window starts at its
hour floor. -/
theorem agg_ts_window_witness :
    (agg_ts [] [7200, 3700] 50000).1 = 3700 / 3600 * 3600 :=
  agg_ts_window.2 [] [7200, 3700] 50000 3700 (by decide) (by decide) (by decide)

/-- store_rows never commits when called with the commit flag left at its
default False. -/
theorem store_rows_no_commit (rows : List Row) (t : String) :
    DBEvent.commit ∉ (store_rows rows t false).2 := by
  unfold store_rows
  split
  · simp
  · simp

/-- The bucket loop of agg_twitch_games issues no commit. -/
theorem agg_games_loop_no_commit (docs : Nat → Nat → List Entry)
    (gameRows vcRows : List Entry → List Row) (s e last : Nat) :
    DBEvent.commit ∉ agg_games_loop_events docs gameRows vcRows s e last := by
  induction s, e, last using agg_games_loop_events.induct docs gameRows vcRows with
  | case1 s e last h ih =>
    rw [agg_games_loop_events, dif_pos h]
    intro hmem
    rcases List.mem_append.mp hmem with h1 | h2
    · by_cases hd : docs s e = []
      · rw [if_neg (not_not_intro hd)] at h1
        exact absurd h1 (List.not_mem_nil _)
      · rw [if_pos hd] at h1
        rcases List.mem_append.mp h1 with hA | hB
        · exact store_rows_no_commit _ _ hA
        · exact store_rows_no_commit _ _ hB
    · exact ih h2
  | case2 s e last h =>
    rw [agg_games_loop_events, dif_neg h]
    exact List.not_mem_nil _

/-- C5: during a run of agg_twitch_games no commit is issued while the bucket
loop executes; the run issues exactly one commit, which comes after the
whole loop as the final store call, so aborting before it persists no rows
and reaching it persists the whole run at once. -/
theorem agg_twitch_games_single_commit (docs : Nat → Nat → List Entry)
    (gameRows vcRows : List Entry → List Row) (s e last : Nat) :
    DBEvent.commit ∉ agg_games_loop_events docs gameRows vcRows s e last
    ∧ agg_twitch_games_events docs gameRows vcRows s e last
        = agg_games_loop_events docs gameRows vcRows s e last ++ [DBEvent.commit]
    ∧ (agg_twitch_games_events docs gameRows vcRows s e last).count DBEvent.commit = 1
    ∧ (agg_twitch_games_events docs gameRows vcRows s e last).getLast?
        = some DBEvent.commit := by
  refine ⟨agg_games_loop_no_commit docs gameRows vcRows s e last, rfl, ?_,
    List.getLast?_concat _⟩
  unfold agg_twitch_games_events
  rw [List.count_append,
    List.count_eq_zero.mpr (agg_games_loop_no_commit docs gameRows vcRows s e last)]
  simp

/-- Witness for C5 at concrete inputs: a run over two empty buckets issues
exactly one commit. -/
theorem agg_twitch_games_single_commit_witness :
    (agg_twitch_games_events (fun _ _ => []) (fun _ => []) (fun _ => [])
      0 3600 7200).count DBEvent.commit = 1 :=
  (agg_twitch_games_single_commit (fun _ _ => []) (fun _ => []) (fun _ => [])
    0 3600 7200).2.2.1

/-- C6: in each scheduler iteration a requests ConnectionError or a pymongo
ServerSelectionTimeoutError raised by the collection action is caught, logs
a warning and lets the loop proceed to its next iteration, a successful
iteration proceeds without a warning, and any other exception propagates and
terminates the loop. -/
theorem scrape_transient_vs_fatal (interval elapsed : ℚ)
    (rest : List (RunResult × ℚ)) :
    scrape interval ((RunResult.connectionError, elapsed) :: rest)
      = IterEvent.completed true (sleep_amount interval elapsed) :: scrape interval rest
    ∧ scrape interval ((RunResult.serverSelectionTimeout, elapsed) :: rest)
      = IterEvent.completed true (sleep_amount interval elapsed) :: scrape interval rest
    ∧ scrape interval ((RunResult.ok, elapsed) :: rest)
      = IterEvent.completed false (sleep_amount interval elapsed) :: scrape interval rest
    ∧ scrape interval ((RunResult.otherError, elapsed) :: rest)
      = [IterEvent.raised] :=
  ⟨rfl, rfl, rfl, rfl⟩

/-- Witness for C6 at concrete inputs: a caught connection error completes
the iteration with a warning instead of ending the loop. -/
theorem scrape_transient_vs_fatal_witness :
    scrape 60 [(RunResult.connectionError, 5)]
      = [IterEvent.completed true (sleep_amount 60 5)] :=
  (scrape_transient_vs_fatal 60 5 []).1

/-- C7: the time slept by a completed iteration is max(0, interval -
elapsed); in particular an iteration whose elapsed time reaches the interval
sleeps zero, so the next invocation starts immediately. -/
theorem scrape_sleep_formula (interval elapsed : ℚ)
    (rest : List (RunResult × ℚ)) :
    sleep_amount interval elapsed = max 0 (interval - elapsed)
    ∧ (interval ≤ elapsed → sleep_amount interval elapsed = 0)
    ∧ (scrape interval ((RunResult.ok, elapsed) :: rest)).head?
        = some (IterEvent.completed false (max 0 (interval - elapsed)))
    ∧ (scrape interval ((RunResult.connectionError, elapsed) :: rest)).head?
        = some (IterEvent.completed true (max 0 (interval - elapsed))) := by
  have hmax : sleep_amount interval elapsed = max 0 (interval - elapsed) := by
    unfold sleep_amount
    rcases lt_or_le 0 (interval - elapsed) with h | h
    · rw [if_pos h, max_eq_right (le_of_lt h)]
    · rw [if_neg (not_lt.mpr h), max_eq_left h]
  refine ⟨hmax, fun hle => ?_, ?_, ?_⟩
  · rw [hmax, max_eq_left (by linarith)]
  · show some (IterEvent.completed false (sleep_amount interval elapsed)) = _
    rw [hmax]
  · show some (IterEvent.completed true (sleep_amount interval elapsed)) = _
    rw [hmax]

/-- Witness for C7: an iteration that took 3 seconds against a 2 second
interval sleeps nothing. -/
theorem scrape_sleep_formula_witness : sleep_amount 2 3 = 0 :=
  (scrape_sleep_formula 2 3 []).2.1 (by norm_num)

/-- C10: store_rows returns False and issues no store call when rows is empty
or the table name is not a known table, and otherwise issues exactly one
conflict-ignoring insert and returns True. -/
theorem store_rows_spec (rows : List Row) (t : String) :
    ((rows = [] ∨ t ∉ tablenames) → store_rows rows t false = (false, []))
    ∧ (rows ≠ [] → t ∈ tablenames →
        store_rows rows t false = (true, [DBEvent.insertRows t true])) := by
  constructor
  · intro h
    unfold store_rows
    rw [if_pos h]
  · intro h1 h2
    unfold store_rows
    rw [if_neg (by push_neg; exact ⟨h1, h2⟩)]
    simp

/-- Witness for C10 on a singleton row list and the game table. -/
theorem store_rows_spec_witness :
    store_rows [[1]] "game" false = (true, [DBEvent.insertRows "game" true]) :=
  (store_rows_spec [[1]] "game").2 (by decide) (by decide)

/-- C9 as stated is false: average_viewers sorts the caller list in place, so
a caller holding entries out of timestamp order observes a reordered list
after the call. -/
theorem average_viewers_run_mutates :
    (average_viewers_run [⟨10, [(1, 5)]⟩, ⟨5, [(2, 3)]⟩] 0 20).1
      ≠ [⟨10, [(1, 5)]⟩, ⟨5, [(2, 3)]⟩] := by
  decide

/-- C9 amended: the only side effect of average_viewers on its caller is that
entries.sort() reorders the argument list in place into ascending timestamp
order; afterwards the list holds exactly the same elements, and the returned
mapping is the pure sort-then-average of the original list. -/
theorem average_viewers_run_sorts (entries : List Entry) (start endt : Int) :
    ((average_viewers_run entries start endt).1.Perm entries)
    ∧ (average_viewers_run entries start endt).1.Pairwise (fun a b => a.ts ≤ b.ts)
    ∧ (average_viewers_run entries start endt).2 = average_viewers entries start endt :=
  ⟨List.perm_insertionSort _ entries, List.sorted_insertionSort _ entries, rfl⟩

/-- An entity absent from the keys of an entry contributes a zero sum. -/
theorem entrySum_of_not_hasKey (name : Nat) :
    ∀ cs : List (Nat × Int), hasKey name cs = false → entrySum name cs = 0 := by
  intro cs
  induction cs with
  | nil => intro _; rfl
  | cons p rest ih =>
    obtain ⟨k, v⟩ := p
    intro h
    rw [hasKey] at h
    rcases Bool.or_eq_false_iff.mp h with ⟨h1, h2⟩
    rw [entrySum, ih h2, h1]
    simp

/-- hasKey tests membership in the key list. -/
theorem hasKey_iff_mem (name : Nat) :
    ∀ cs : List (Nat × Int), hasKey name cs = true ↔ name ∈ cs.map Prod.fst := by
  intro cs
  induction cs with
  | nil => simp [hasKey]
  | cons p rest ih =>
    obtain ⟨k, v⟩ := p
    rw [hasKey]
    simp only [List.map_cons, List.mem_cons, Bool.or_eq_true, beq_iff_eq, ih]
    constructor
    · rintro (h | h)
      · exact Or.inl h.symm
      · exact Or.inr h
    · rintro (h | h)
      · exact Or.inl h.symm
      · exact Or.inr h


/-- Witness for the amended C9 at concrete inputs: the reordered list is a
permutation of the original one. -/
theorem average_viewers_run_sorts_witness :
    ((average_viewers_run [⟨10, [(1, 5)]⟩, ⟨5, [(2, 3)]⟩] 0 20).1).Perm
      [⟨10, [(1, 5)]⟩, ⟨5, [(2, 3)]⟩] :=
  (average_viewers_run_sorts [⟨10, [(1, 5)]⟩, ⟨5, [(2, 3)]⟩] 0 20).1

/-- A Bool known to be false is not true. -/
theorem bool_ne_true {b : Bool} (h : b = false) : ¬ b = true := by
  rw [h]
  exact Bool.false_ne_true

/-- A Bool that is not true is false. -/
theorem bool_eq_false_of_ne_true {b : Bool} (h : ¬ b = true) : b = false := by
  cases h2 : b
  · rfl
  · exact absurd h2 h

/-- On a dict with distinct keys the accumulated sum under a key is the dict
lookup. -/
theorem entrySum_eq_entryCount (name : Nat) :
    ∀ cs : List (Nat × Int), (cs.map Prod.fst).Nodup →
      entrySum name cs = if hasKey name cs then entryCount name cs else 0 := by
  intro cs
  induction cs with
  | nil => intro _; rfl
  | cons p rest ih =>
    obtain ⟨k, v⟩ := p
    intro hnd
    rw [List.map_cons, List.nodup_cons] at hnd
    by_cases hk : k = name
    · subst hk
      have hnk : hasKey k rest = false := by
        cases h2 : hasKey k rest
        · rfl
        · exact absurd ((hasKey_iff_mem k rest).mp h2) hnd.1
      have hkey : hasKey k ((k, v) :: rest) = true := by
        rw [hasKey]
        simp
      rw [entrySum, entrySum_of_not_hasKey k rest hnk, if_pos hkey, entryCount]
      simp
    · have hbeq : (k == name) = false := beq_eq_false_iff_ne.mpr hk
      have hbn : ¬ (k == name) = true := bool_ne_true hbeq
      have hkey : hasKey name ((k, v) :: rest) = hasKey name rest := by
        rw [hasKey, hbeq, Bool.false_or]
      have hcount : entryCount name ((k, v) :: rest) = entryCount name rest := by
        rw [entryCount, if_neg hbn]
      rw [entrySum, if_neg hbn, zero_add, ih hnd.2, hkey, hcount]

/-- Pointwise effect of the inner accumulation loop over one entry: an entity
among the keys ends at its previous value (absent read as 0) plus its total
count times the attributed duration; any other entity is untouched. -/
theorem addCounts_apply (name : Nat) (dt : Int) :
    ∀ (cs : List (Nat × Int)) (res : VDict),
      addCounts res dt cs name =
        if hasKey name cs then some ((res name).getD 0 + entrySum name cs * dt)
        else res name := by
  intro cs
  induction cs with
  | nil =>
    intro res
    simp [addCounts, hasKey]
  | cons p rest ih =>
    obtain ⟨k, v⟩ := p
    intro res
    rw [addCounts, ih]
    by_cases hk : k = name
    · subst hk
      have hset : dictSet res k ((res k).getD 0 + v * dt) k
          = some ((res k).getD 0 + v * dt) := by
        rw [dictSet]
        simp
      have hkey : hasKey k ((k, v) :: rest) = true := by
        rw [hasKey]
        simp
      have hsum : entrySum k ((k, v) :: rest) = v + entrySum k rest := by
        rw [entrySum]
        simp
      by_cases hr : hasKey k rest = true
      · rw [if_pos hr, if_pos hkey, hset, hsum]
        simp only [Option.getD_some]
        congr 1
        ring
      · have hrf : hasKey k rest = false := bool_eq_false_of_ne_true hr
        rw [if_neg (bool_ne_true hrf), if_pos hkey, hset, hsum,
          entrySum_of_not_hasKey k rest hrf]
        congr 1
        ring
    · have hbeq : (k == name) = false := beq_eq_false_iff_ne.mpr hk
      have hset : dictSet res k ((res k).getD 0 + v * dt) name = res name := by
        rw [dictSet]
        simp [Ne.symm hk]
      have hkey : hasKey name ((k, v) :: rest) = hasKey name rest := by
        rw [hasKey, hbeq, Bool.false_or]
      have hsum : entrySum name ((k, v) :: rest) = entrySum name rest := by
        rw [entrySum, if_neg (bool_ne_true hbeq), zero_add]
      rw [hkey, hsum, hset]

/-- The second component returned by the main loop is the timestamp of the
last entry (or the initial value on an empty list). -/
theorem aggLoop_snd : ∀ (l : List Entry) (res : VDict) (last : Int),
    (aggLoop l res last).2 = lastTs l last := by
  intro l
  induction l with
  | nil => intro res last; rfl
  | cons e rest ih =>
    intro res last
    rw [aggLoop, lastTs]
    exact ih _ _

/-- An entity appearing in no entry accumulates a zero weighted sum. -/
theorem wsumRun_of_not_appears (name : Nat) :
    ∀ (l : List Entry) (last : Int),
      appearsIn name l = false → wsumRun name l last = 0 := by
  intro l
  induction l with
  | nil => intro _ _; rfl
  | cons e rest ih =>
    intro last h
    rw [appearsIn] at h
    rcases Bool.or_eq_false_iff.mp h with ⟨h1, h2⟩
    rw [wsumRun, entrySum_of_not_hasKey name e.counts h1, ih e.ts h2]
    ring

/-- Pointwise effect of the main loop: an entity appearing somewhere ends at
its previous value (absent read as 0) plus the accumulated weighted sum; any
other entity is untouched. -/
theorem aggLoop_apply (name : Nat) :
    ∀ (l : List Entry) (res : VDict) (last : Int),
      (aggLoop l res last).1 name =
        if appearsIn name l then some ((res name).getD 0 + wsumRun name l last)
        else res name := by
  intro l
  induction l with
  | nil => intro res last; simp [aggLoop, appearsIn]
  | cons e rest ih =>
    intro res last
    rw [aggLoop, ih]
    by_cases hK : hasKey name e.counts = true
    · have happ : appearsIn name (e :: rest) = true := by
        rw [appearsIn, hK, Bool.true_or]
      have hadd : addCounts res (e.ts - last) e.counts name
          = some ((res name).getD 0 + entrySum name e.counts * (e.ts - last)) := by
        rw [addCounts_apply, if_pos hK]
      by_cases hA : appearsIn name rest = true
      · rw [if_pos hA, if_pos happ, hadd, wsumRun]
        simp only [Option.getD_some]
        congr 1
        ring
      · have hAf : appearsIn name rest = false := bool_eq_false_of_ne_true hA
        rw [if_neg (bool_ne_true hAf), if_pos happ, hadd, wsumRun,
          wsumRun_of_not_appears name rest e.ts hAf]
        congr 1
        ring
    · have hKf : hasKey name e.counts = false := bool_eq_false_of_ne_true hK
      have hadd : addCounts res (e.ts - last) e.counts name = res name := by
        rw [addCounts_apply, if_neg (bool_ne_true hKf)]
      have happ : appearsIn name (e :: rest) = appearsIn name rest := by
        rw [appearsIn, hKf, Bool.false_or]
      have hsum0 : entrySum name e.counts = 0 :=
        entrySum_of_not_hasKey name e.counts hKf
      rw [happ, hadd]
      by_cases hA : appearsIn name rest = true
      · rw [if_pos hA, if_pos hA, wsumRun, hsum0]
        congr 1
        ring
      · have hAf : appearsIn name rest = false := bool_eq_false_of_ne_true hA
        rw [if_neg (bool_ne_true hAf), if_neg (bool_ne_true hAf)]

/-- On entries whose viewercounts are genuine dicts (distinct keys) the
accumulated weighted sum is the specified one. -/
theorem wsumRun_eq_wsumSpec (name : Nat) :
    ∀ l : List Entry, (∀ e ∈ l, (e.counts.map Prod.fst).Nodup) →
      ∀ last, wsumRun name l last = wsumSpec name l last := by
  intro l
  induction l with
  | nil => intro _ _; rfl
  | cons e rest ih =>
    intro hnd last
    rw [wsumRun, wsumSpec,
      entrySum_eq_entryCount name e.counts (hnd e (List.mem_cons_self e rest)),
      ih (fun x hx => hnd x (List.mem_cons_of_mem e hx)) e.ts]
    by_cases hK : hasKey name e.counts = true
    · rw [if_pos hK, if_pos hK]
    · have hKf : hasKey name e.counts = false := bool_eq_false_of_ne_true hK
      rw [if_neg (bool_ne_true hKf), if_neg (bool_ne_true hKf)]
      ring

/-- appearsIn is the existence of an entry containing the key. -/
theorem appearsIn_iff_exists (name : Nat) :
    ∀ l : List Entry,
      appearsIn name l = true ↔ ∃ e ∈ l, hasKey name e.counts = true := by
  intro l
  induction l with
  | nil => simp [appearsIn]
  | cons e rest ih => simp [appearsIn, ih]

/-- appearsIn is invariant under permutation of the entries. -/
theorem appearsIn_perm (name : Nat) {l1 l2 : List Entry} (h : l1.Perm l2) :
    appearsIn name l1 = appearsIn name l2 := by
  apply Bool.eq_iff_iff.mpr
  rw [appearsIn_iff_exists, appearsIn_iff_exists]
  constructor
  · rintro ⟨e, he, hk⟩
    exact ⟨e, h.mem_iff.mp he, hk⟩
  · rintro ⟨e, he, hk⟩
    exact ⟨e, h.mem_iff.mpr he, hk⟩

/-- The last element reported by getLast? belongs to the list. -/
theorem getLast?_mem_entry :
    ∀ {l : List Entry} {e : Entry}, l.getLast? = some e → e ∈ l := by
  intro l
  induction l with
  | nil => intro e h; simp at h
  | cons a rest ih =>
    intro e h
    cases rest with
    | nil =>
      simp at h
      simp [h]
    | cons b rest2 =>
      rw [List.getLast?_cons_cons] at h
      exact List.mem_cons_of_mem a (ih h)

/-- lastTs returns the timestamp of the element reported by getLast?. -/
theorem lastTs_eq_of_getLast? :
    ∀ (l : List Entry) (e : Entry), l.getLast? = some e →
      ∀ last, lastTs l last = e.ts := by
  intro l
  induction l with
  | nil => intro e h; simp at h
  | cons a rest ih =>
    intro e h last
    cases rest with
    | nil =>
      simp at h
      rw [h]
      rfl
    | cons b rest2 =>
      rw [List.getLast?_cons_cons] at h
      rw [lastTs]
      exact ih e h a.ts

/-- Unfolding of the specified weighted sum when the sorted list has a last
element. -/
theorem specWeightedSum_of_getLast? (sorted : List Entry) (start endt : Int)
    (name : Nat) (e : Entry) (hL : sorted.getLast? = some e) :
    specWeightedSum sorted start endt name =
      wsumSpec name sorted start +
        (if hasKey name e.counts then
          entryCount name e.counts * (endt - lastTs sorted start)
         else 0) := by
  unfold specWeightedSum
  rw [hL]

/-- C1: for integer timestamps and start < endt, average_viewers maps every
entity appearing in at least one entry to the floor division of the
specified weighted sum (accumulated over the stably sorted entries, with the
final segment up to endt attributed to the entities of the last entry) by
(endt - start), leaves every other entity absent, and returns the empty
mapping on an empty entry list. -/
theorem average_viewers_spec (entries : List Entry) (start endt : Int)
    (hlt : start < endt)
    (hnd : ∀ e ∈ entries, (e.counts.map Prod.fst).Nodup) :
    (entries = [] → average_viewers entries start endt = emptyDict)
    ∧ ∀ name,
        average_viewers entries start endt name =
          if appearsIn name entries
          then some ((specWeightedSum (sortEntries entries) start endt name).fdiv
            (endt - start))
          else none := by
  have hperm : (sortEntries entries).Perm entries := List.perm_insertionSort _ entries
  have hnds : ∀ e ∈ sortEntries entries, (e.counts.map Prod.fst).Nodup :=
    fun e he => hnd e (hperm.mem_iff.mp he)
  constructor
  · rintro rfl
    rfl
  · intro name
    have happ : appearsIn name (sortEntries entries) = appearsIn name entries :=
      appearsIn_perm name hperm
    rw [← happ]
    simp only [average_viewers]
    rcases hL : (sortEntries entries).getLast? with _ | e
    · have hnil : sortEntries entries = [] := List.getLast?_eq_none_iff.mp hL
      rw [hnil]
      simp [aggLoop, appearsIn, emptyDict]
    · have hmem : e ∈ sortEntries entries := getLast?_mem_entry hL
      simp only [aggLoop_snd]
      rw [addCounts_apply, aggLoop_apply,
        specWeightedSum_of_getLast? _ start endt name e hL]
      by_cases hK : hasKey name e.counts = true
      · have hA : appearsIn name (sortEntries entries) = true :=
          (appearsIn_iff_exists name _).mpr ⟨e, hmem, hK⟩
        rw [if_pos hK, if_pos hA, if_pos hA, if_pos hK,
          wsumRun_eq_wsumSpec name _ hnds start,
          entrySum_eq_entryCount name e.counts (hnds e hmem), if_pos hK]
        simp only [emptyDict, Option.getD_none, Option.getD_some, zero_add,
          Option.map_some']
      · have hKf : hasKey name e.counts = false := bool_eq_false_of_ne_true hK
        rw [if_neg (bool_ne_true hKf), if_neg (bool_ne_true hKf)]
        by_cases hA : appearsIn name (sortEntries entries) = true
        · rw [if_pos hA, if_pos hA, wsumRun_eq_wsumSpec name _ hnds start]
          simp only [emptyDict, Option.getD_none, zero_add, add_zero,
            Option.map_some']
        · have hAf : appearsIn name (sortEntries entries) = false :=
            bool_eq_false_of_ne_true hA
          rw [if_neg (bool_ne_true hAf), if_neg (bool_ne_true hAf)]
          simp [emptyDict]

/-- Witness for C1 on the test data of the repository: two snapshots over the
window 0..2000, queried at entity 1. -/
theorem average_viewers_spec_witness :
    average_viewers [⟨1800, [(1, 400), (2, 1)]⟩, ⟨1900, [(1, 400), (2, 1)]⟩] 0 2000 1
      = some ((specWeightedSum
          (sortEntries [⟨1800, [(1, 400), (2, 1)]⟩, ⟨1900, [(1, 400), (2, 1)]⟩])
          0 2000 1).fdiv (2000 - 0)) :=
  ((average_viewers_spec [⟨1800, [(1, 400), (2, 1)]⟩, ⟨1900, [(1, 400), (2, 1)]⟩]
      0 2000 (by decide) (by decide)).2 1).trans (by decide)

/-- Along entries holding a single entity at a constant count the weighted
sum telescopes. -/
theorem wsumRun_const (name : Nat) (c : Int) :
    ∀ l : List Entry, (∀ e ∈ l, e.counts = [(name, c)]) →
      ∀ last, wsumRun name l last = c * (lastTs l last - last) := by
  intro l
  induction l with
  | nil => intro _ last; simp [wsumRun, lastTs]
  | cons e rest ih =>
    intro hc last
    rw [wsumRun, lastTs, hc e (List.mem_cons_self e rest),
      ih (fun x hx => hc x (List.mem_cons_of_mem e hx)) e.ts]
    rw [entrySum, entrySum]
    simp only [beq_self_eq_true, if_true]
    ring

/-- C8: on a nonempty entry sequence holding a single entity at the same
constant count c, with every timestamp inside the window and start < endt,
average_viewers returns exactly c for that entity, however the window is
subdivided. -/
theorem average_viewers_const (entries : List Entry) (name : Nat) (c : Int)
    (start endt : Int) (hne : entries ≠ [])
    (hc : ∀ e ∈ entries, e.counts = [(name, c)])
    (hts : ∀ e ∈ entries, start ≤ e.ts ∧ e.ts ≤ endt)
    (hlt : start < endt) :
    average_viewers entries start endt name = some c := by
  have hperm : (sortEntries entries).Perm entries := List.perm_insertionSort _ entries
  have hcs : ∀ e ∈ sortEntries entries, e.counts = [(name, c)] :=
    fun e he => hc e (hperm.mem_iff.mp he)
  simp only [average_viewers]
  rcases hL : (sortEntries entries).getLast? with _ | e
  · have hnil : sortEntries entries = [] := List.getLast?_eq_none_iff.mp hL
    rw [hnil] at hperm
    have hlen := hperm.length_eq
    simp at hlen
    exact absurd (List.length_eq_zero.mp hlen.symm) hne
  · have hmem : e ∈ sortEntries entries := getLast?_mem_entry hL
    have hce : e.counts = [(name, c)] := hcs e hmem
    have hK : hasKey name e.counts = true := by
      rw [hce, hasKey]
      simp
    have hA : appearsIn name (sortEntries entries) = true :=
      (appearsIn_iff_exists name _).mpr ⟨e, hmem, hK⟩
    simp only [aggLoop_snd]
    rw [addCounts_apply, aggLoop_apply, if_pos hK, if_pos hA]
    simp only [emptyDict, Option.getD_none, Option.getD_some, zero_add,
      Option.map_some']
    rw [wsumRun_const name c _ hcs start,
      lastTs_eq_of_getLast? _ e hL start]
    have hsum : entrySum name e.counts = c := by
      rw [hce]
      simp [entrySum]
    rw [hsum]
    have harg : c * (e.ts - start) + c * (endt - e.ts) = c * (endt - start) := by
      ring
    rw [harg, Int.mul_fdiv_cancel c (by omega)]

/-- Witness for C8: one snapshot at count 3 over the window 0..10 averages
exactly 3. -/
theorem average_viewers_const_witness :
    average_viewers [⟨5, [(7, 3)]⟩] 0 10 7 = some 3 :=
  average_viewers_const [⟨5, [(7, 3)]⟩] 7 3 0 10 (by decide) (by decide)
    (by decide) (by decide)

end EsportsStats
